import Mathlib

/-!
# Verification of the `toolchest` function-gating combinator suite

Shallow embedding of the combinators in `src/functions/` (retry, backoff,
circuit breaker, rate limiter, memoize, throttle, timeout, debounce) and
proofs of the spec's testable properties about them.

Modelling conventions:
- Wall-clock instants (`std::time::Instant`) are logical timestamps in `Nat`
  (or `ℚ` of elapsed seconds for the rate limiter); every operation that reads
  the clock takes the current time as an explicit argument, and a sequence of
  calls is a list of (monotone) call times.
- Durations are `Nat` (nanoseconds); `Duration::saturating_mul` saturates at
  `Duration::MAX`, embedded as `durationMax`.
- A fallible operation `FnMut() -> Result<T, E>` is a stream
  `op : Nat → Except E T` giving the result of its i-th invocation.
- Mutex-protected state is explicit state passing: every Rust method that
  mutates state returns the updated record.
-/

namespace Toolchest

/-! ## Retry (`src/functions/retry.rs`)

`retry(attempts, delay, op)` loops: call `op`; on `Ok` return; on `Err`
decrement `attempts` with `u32::saturating_sub(1)`, return the error when the
counter hits 0, otherwise sleep `delay` (when it is `Some`) and loop.

The embedding threads the invocation index `i` and returns
`(result, index after the last invocation, list of slept delays)`.
`attempts.saturating_sub(1)` is `0` when `attempts` is `0` or `1` (so the
error is returned) and `attempts - 1` otherwise (so the loop recurses); the
match below mirrors exactly that case split, structurally in `attempts` so
the definition computes by kernel reduction. -/

/-- One pass of the `retry` loop starting at invocation index `i` with
`attempts` remaining. Returns the result, the index after the last
invocation (= total invocation count when started at 0), and the sleeps
performed, in order. -/
def retryGo {E T : Type} : Nat → Option Nat → (Nat → Except E T) → Nat →
    Except E T × Nat × List Nat
  | attempts, delay, op, i =>
    match op i with
    | Except.ok v => (Except.ok v, i + 1, [])
    | Except.error e =>
      match attempts with
      | 0 => (Except.error e, i + 1, [])
      | a + 1 =>
        if a = 0 then (Except.error e, i + 1, [])
        else
          let r := retryGo a delay op (i + 1)
          (r.1, r.2.1, delay.toList ++ r.2.2)

/-- `retry` from `src/functions/retry.rs`: result, invocation count, sleeps. -/
def retry {E T : Type} (attempts : Nat) (delay : Option Nat)
    (op : Nat → Except E T) : Except E T × Nat × List Nat :=
  retryGo attempts delay op 0

/-! ## Retry with exponential backoff (`src/functions/backoff.rs`) -/

/-- `Duration::MAX` in nanoseconds: `u64::MAX` seconds plus 999 999 999 ns. -/
def durationMax : Nat := 18446744073709551615 * 1000000000 + 999999999

/-- `Duration::saturating_mul(2)`: doubling clamped at `Duration::MAX`. -/
def satMul2 (d : Nat) : Nat := min (d * 2) durationMax

/-- One pass of the `retry_with_backoff` loop: like `retryGo` but always
sleeps the current `delay` before a retry and then doubles it
(saturating). -/
def backoffGo {E T : Type} : Nat → Nat → (Nat → Except E T) → Nat →
    Except E T × Nat × List Nat
  | attempts, delay, op, i =>
    match op i with
    | Except.ok v => (Except.ok v, i + 1, [])
    | Except.error e =>
      match attempts with
      | 0 => (Except.error e, i + 1, [])
      | a + 1 =>
        if a = 0 then (Except.error e, i + 1, [])
        else
          let r := backoffGo a (satMul2 delay) op (i + 1)
          (r.1, r.2.1, delay :: r.2.2)

/-- `retry_with_backoff` from `src/functions/backoff.rs`. -/
def retry_with_backoff {E T : Type} (attempts : Nat) (base_delay : Nat)
    (op : Nat → Except E T) : Except E T × Nat × List Nat :=
  backoffGo attempts base_delay op 0

/-! ### Step lemmas for `retryGo` and `backoffGo` -/

theorem retryGo_ok {E T : Type} (attempts : Nat) (delay : Option Nat)
    (op : Nat → Except E T) (i : Nat) (v : T) (hok : op i = Except.ok v) :
    retryGo attempts delay op i = (Except.ok v, i + 1, []) := by
  conv_lhs => unfold retryGo
  rw [hok]

theorem retryGo_error_zero {E T : Type} (delay : Option Nat)
    (op : Nat → Except E T) (i : Nat) (e : E) (he : op i = Except.error e) :
    retryGo 0 delay op i = (Except.error e, i + 1, []) := by
  conv_lhs => unfold retryGo
  rw [he]

theorem retryGo_error_last {E T : Type} (delay : Option Nat)
    (op : Nat → Except E T) (i : Nat) (e : E) (he : op i = Except.error e) :
    retryGo 1 delay op i = (Except.error e, i + 1, []) := by
  conv_lhs => unfold retryGo
  rw [he]
  rfl

theorem retryGo_error_step {E T : Type} (a : Nat) (delay : Option Nat)
    (op : Nat → Except E T) (i : Nat) (e : E) (he : op i = Except.error e) :
    retryGo (a + 2) delay op i =
      ((retryGo (a + 1) delay op (i + 1)).1,
        (retryGo (a + 1) delay op (i + 1)).2.1,
        delay.toList ++ (retryGo (a + 1) delay op (i + 1)).2.2) := by
  conv_lhs => unfold retryGo
  rw [he]
  simp

theorem backoffGo_ok {E T : Type} (attempts delay : Nat)
    (op : Nat → Except E T) (i : Nat) (v : T) (hok : op i = Except.ok v) :
    backoffGo attempts delay op i = (Except.ok v, i + 1, []) := by
  conv_lhs => unfold backoffGo
  rw [hok]

theorem backoffGo_error_zero {E T : Type} (delay : Nat)
    (op : Nat → Except E T) (i : Nat) (e : E) (he : op i = Except.error e) :
    backoffGo 0 delay op i = (Except.error e, i + 1, []) := by
  conv_lhs => unfold backoffGo
  rw [he]

theorem backoffGo_error_last {E T : Type} (delay : Nat)
    (op : Nat → Except E T) (i : Nat) (e : E) (he : op i = Except.error e) :
    backoffGo 1 delay op i = (Except.error e, i + 1, []) := by
  conv_lhs => unfold backoffGo
  rw [he]
  rfl

theorem backoffGo_error_step {E T : Type} (a delay : Nat)
    (op : Nat → Except E T) (i : Nat) (e : E) (he : op i = Except.error e) :
    backoffGo (a + 2) delay op i =
      ((backoffGo (a + 1) (satMul2 delay) op (i + 1)).1,
        (backoffGo (a + 1) (satMul2 delay) op (i + 1)).2.1,
        delay :: (backoffGo (a + 1) (satMul2 delay) op (i + 1)).2.2) := by
  conv_lhs => unfold backoffGo
  rw [he]
  simp

/-! ### Behaviour of `retryGo` -/

theorem retryGo_succeeds_after {E T : Type} (k : Nat) :
    ∀ (attempts i : Nat) (delay : Option Nat) (op : Nat → Except E T) (v : T),
      k < attempts →
      (∀ j, j < k → ∃ e, op (i + j) = Except.error e) →
      op (i + k) = Except.ok v →
      (retryGo attempts delay op i).1 = Except.ok v ∧
        (retryGo attempts delay op i).2.1 = i + k + 1 := by
  induction k with
  | zero =>
    intro attempts i delay op v _ _ hok
    rw [retryGo_ok attempts delay op i v (by simpa using hok)]
    exact ⟨rfl, rfl⟩
  | succ k ih =>
    intro attempts i delay op v hlt hfail hok
    obtain ⟨a, rfl⟩ : ∃ a, attempts = a + 2 := ⟨attempts - 2, by omega⟩
    obtain ⟨e, he⟩ := hfail 0 (Nat.succ_pos k)
    simp only [Nat.add_zero] at he
    have hfail' : ∀ j, j < k → ∃ e, op (i + 1 + j) = Except.error e := by
      intro j hj
      have := hfail (j + 1) (by omega)
      simpa [Nat.add_comm, Nat.add_assoc, Nat.add_left_comm] using this
    have hok' : op (i + 1 + k) = Except.ok v := by
      have hidx : i + 1 + k = i + (k + 1) := by omega
      rw [hidx]; exact hok
    have hih := ih (a + 1) (i + 1) delay op v (by omega) hfail' hok'
    rw [retryGo_error_step a delay op i e he]
    refine ⟨hih.1, ?_⟩
    show (retryGo (a + 1) delay op (i + 1)).2.1 = i + (k + 1) + 1
    rw [hih.2]
    omega

theorem retryGo_all_fail {E T : Type} (errs : Nat → E) :
    ∀ (attempts : Nat), 1 ≤ attempts →
      ∀ (i : Nat) (delay : Option Nat) (op : Nat → Except E T),
      (∀ j, op j = Except.error (errs j)) →
      (retryGo attempts delay op i).1 = Except.error (errs (i + attempts - 1)) ∧
        (retryGo attempts delay op i).2.1 = i + attempts := by
  intro attempts
  induction attempts with
  | zero => intro h; omega
  | succ n ih =>
    intro _ i delay op hfail
    cases n with
    | zero =>
      rw [retryGo_error_last delay op i _ (hfail i)]
      constructor
      · show Except.error (errs i) = Except.error (errs (i + (0 + 1) - 1))
        rw [show i + (0 + 1) - 1 = i from by omega]
      · rfl
    | succ m =>
      have hih := ih (by omega) (i + 1) delay op hfail
      rw [retryGo_error_step m delay op i _ (hfail i)]
      constructor
      · show (retryGo (m + 1) delay op (i + 1)).1 =
          Except.error (errs (i + (m + 1 + 1) - 1))
        rw [hih.1, show i + 1 + (m + 1) - 1 = i + (m + 1 + 1) - 1 from by omega]
      · show (retryGo (m + 1) delay op (i + 1)).2.1 = i + (m + 1 + 1)
        rw [hih.2]
        omega

/-- C2: retry invocation count. For every `N ≥ 1`: if `op` fails on its
first `k < N` invocations and succeeds on the `(k+1)`-th, `retry N delay op`
returns the success value having invoked `op` exactly `k + 1` times; if `op`
fails on every invocation, `retry N delay op` invokes `op` exactly `N` times
and returns the error of the `N`-th (last) invocation. -/
theorem retry_invocation_count {E T : Type} (N k : Nat) (delay : Option Nat)
    (op : Nat → Except E T) (v : T) (errs : Nat → E) :
    (k < N → (∀ j, j < k → ∃ e, op j = Except.error e) → op k = Except.ok v →
      (retry N delay op).1 = Except.ok v ∧ (retry N delay op).2.1 = k + 1) ∧
    (1 ≤ N → (∀ j, op j = Except.error (errs j)) →
      (retry N delay op).1 = Except.error (errs (N - 1)) ∧
        (retry N delay op).2.1 = N) := by
  constructor
  · intro hkN hfail hok
    have := retryGo_succeeds_after k N 0 delay op v hkN
      (by intro j hj; simpa using hfail j hj) (by simpa using hok)
    simpa [retry] using this
  · intro hN hfail
    have := retryGo_all_fail errs N hN 0 delay op hfail
    simpa [retry] using this

/-- Witness for C2 at concrete inputs: `N = 3`, an `op` that fails once then
succeeds with `42` is retried to success in 2 invocations, and an always
failing `op` returns the error of the third invocation after exactly 3. -/
theorem retry_invocation_count_witness :
    ((retry 3 none (fun i => if i < 1 then Except.error i else Except.ok 42)).1
        = Except.ok 42 ∧
      (retry 3 none (fun i => if i < 1 then Except.error i else Except.ok 42)).2.1 = 2) ∧
    ((retry 3 none (fun i => (Except.error i : Except Nat Nat))).1 = Except.error 2 ∧
      (retry 3 none (fun i => (Except.error i : Except Nat Nat))).2.1 = 3) := by
  constructor
  · exact (retry_invocation_count 3 1 none
      (fun i => if i < 1 then Except.error i else Except.ok 42) 42 id).1
      (by decide)
      (by intro j hj; have hj0 : j = 0 := by omega
          subst hj0; exact ⟨0, rfl⟩)
      rfl
  · exact (retry_invocation_count 3 0 none
      (fun i => (Except.error i : Except Nat Nat)) 0 id).2
      (by decide) (by intro j; rfl)

/-! ### Behaviour of `backoffGo` -/

theorem satMul2_iterate (b : Nat) (hb : b ≤ durationMax) :
    ∀ j, satMul2^[j] b = min (b * 2 ^ j) durationMax := by
  intro j
  induction j with
  | zero => simp [Nat.min_eq_left hb]
  | succ j ih =>
    rw [Function.iterate_succ_apply', ih, satMul2]
    rw [pow_succ, ← Nat.mul_assoc]
    generalize b * 2 ^ j = x
    unfold durationMax
    omega

theorem backoffGo_sleeps_get {E T : Type} :
    ∀ (attempts delay i j x : Nat) (op : Nat → Except E T),
      ((backoffGo attempts delay op i).2.2).get? j = some x →
      x = satMul2^[j] delay := by
  intro attempts
  induction attempts using Nat.strong_induction_on with
  | _ attempts ih =>
    intro delay i j x op h
    cases hop : op i with
    | ok v =>
      rw [backoffGo_ok attempts delay op i v hop] at h
      simp at h
    | error e =>
      match attempts with
      | 0 =>
        rw [backoffGo_error_zero delay op i e hop] at h
        simp at h
      | 1 =>
        rw [backoffGo_error_last delay op i e hop] at h
        simp at h
      | a + 2 =>
        rw [backoffGo_error_step a delay op i e hop] at h
        cases j with
        | zero =>
          simp only [List.get?] at h
          cases h
          rfl
        | succ j =>
          simp only [List.get?] at h
          have := ih (a + 1) (by omega) (satMul2 delay) (i + 1) j x op h
          rw [this, Function.iterate_succ_apply]

theorem backoffGo_all_fail_length {E T : Type} (errs : Nat → E) :
    ∀ (attempts : Nat), 1 ≤ attempts →
      ∀ (delay i : Nat) (op : Nat → Except E T),
      (∀ j, op j = Except.error (errs j)) →
      (backoffGo attempts delay op i).2.2.length = attempts - 1 := by
  intro attempts
  induction attempts with
  | zero => intro h; omega
  | succ n ih =>
    intro _ delay i op hfail
    cases n with
    | zero =>
      rw [backoffGo_error_last delay op i _ (hfail i)]
      rfl
    | succ m =>
      rw [backoffGo_error_step m delay op i _ (hfail i)]
      show (delay :: (backoffGo (m + 1) (satMul2 delay) op (i + 1)).2.2).length
        = m + 1 + 1 - 1
      rw [List.length_cons, ih (by omega) (satMul2 delay) (i + 1) op hfail]
      omega

/-- C4: backoff doubling. For every attempt budget `N` and `base_delay`
`b ≤ Duration::MAX`: every delay actually slept by `retry_with_backoff N b op`
before its `(j+1)`-th retry equals `b * 2 ^ j` computed with saturating
multiplication (i.e. clamped at `Duration::MAX`); and when `op` always fails
and `N ≥ 1`, exactly `N - 1` such sleeps occur. -/
theorem backoff_doubling {E T : Type} (N b : Nat) (op : Nat → Except E T)
    (errs : Nat → E) (hb : b ≤ durationMax) :
    (∀ j x, ((retry_with_backoff N b op).2.2).get? j = some x →
      x = min (b * 2 ^ j) durationMax) ∧
    ((∀ j, op j = Except.error (errs j)) → 1 ≤ N →
      (retry_with_backoff N b op).2.2.length = N - 1) := by
  constructor
  · intro j x h
    have := backoffGo_sleeps_get N b 0 j x op h
    rw [this, satMul2_iterate b hb]
  · intro hfail hN
    exact backoffGo_all_fail_length errs N hN b 0 op hfail

/-- Witness for C4 at `N = 4`, `b = 3`, always-failing `op`: the sleeps are
`[3, 6, 12]`, so the third sleep equals `min (3 * 2^2) durationMax = 12` and
there are exactly `4 - 1 = 3` sleeps. -/
theorem backoff_doubling_witness :
    (12 : Nat) = min (3 * 2 ^ 2) durationMax ∧
      (retry_with_backoff 4 3 (fun i => (Except.error i : Except Nat Nat))).2.2.length = 4 - 1 := by
  constructor
  · exact (backoff_doubling 4 3 (fun i => (Except.error i : Except Nat Nat)) id
      (by unfold durationMax; omega)).1 2 12 (by decide)
  · exact (backoff_doubling 4 3 (fun i => (Except.error i : Except Nat Nat)) id
      (by unfold durationMax; omega)).2 (fun j => rfl) (by decide)

/-- C10: zero-attempts edge case. `retry 0 delay op` and
`retry_with_backoff 0 base_delay op` behave exactly like attempt budget 1:
`op` is invoked exactly once, its result (success or error) is returned, and
no sleep occurs. -/
theorem retry_zero_attempts {E T : Type} (d : Option Nat) (b : Nat)
    (op : Nat → Except E T) :
    retry 0 d op = retry 1 d op ∧
    (retry 0 d op).1 = op 0 ∧ (retry 0 d op).2.1 = 1 ∧ (retry 0 d op).2.2 = [] ∧
    retry_with_backoff 0 b op = retry_with_backoff 1 b op ∧
    (retry_with_backoff 0 b op).1 = op 0 ∧
    (retry_with_backoff 0 b op).2.1 = 1 ∧
    (retry_with_backoff 0 b op).2.2 = [] := by
  cases hop : op 0 with
  | ok v =>
    unfold retry retry_with_backoff
    rw [retryGo_ok 0 d op 0 v hop, retryGo_ok 1 d op 0 v hop,
      backoffGo_ok 0 b op 0 v hop, backoffGo_ok 1 b op 0 v hop]
    exact ⟨rfl, rfl, rfl, rfl, rfl, rfl, rfl, rfl⟩
  | error e =>
    unfold retry retry_with_backoff
    rw [retryGo_error_zero d op 0 e hop, retryGo_error_last d op 0 e hop,
      backoffGo_error_zero b op 0 e hop, backoffGo_error_last b op 0 e hop]
    exact ⟨rfl, rfl, rfl, rfl, rfl, rfl, rfl, rfl⟩

/-! ## Circuit breaker (`src/functions/circuit_breaker.rs`)

The breaker's `Arc<Mutex<..>>` cells become fields of an explicit state
record; `Instant::now()` is passed to each operation as `now : Nat`, and the
wrapped operation's outcome for a single `call` is an `Except E T` value.
`call` returns the call result, the updated breaker, and a flag telling
whether the wrapped operation was invoked. -/

/-- `BreakerState` from `src/functions/circuit_breaker.rs`. -/
inductive BreakerState where
  | Closed
  | Open
  | HalfOpen
deriving DecidableEq

/-- `CircuitBreakerError` from `src/functions/circuit_breaker.rs`. -/
inductive CircuitBreakerError (E : Type) where
  | Open
  | OperationError (e : E)
deriving DecidableEq

/-- The state of a `CircuitBreaker`: the mutex-protected cells `state`,
`failures`, `open_until` plus the fixed `threshold` and `cooldown`. -/
structure CircuitBreaker where
  state : BreakerState
  failures : Nat
  threshold : Nat
  openUntil : Option Nat
  cooldown : Nat
deriving DecidableEq

/-- `CircuitBreaker::new`. -/
def CircuitBreaker.new (threshold cooldown : Nat) : CircuitBreaker :=
  { state := BreakerState.Closed
    failures := 0
    threshold := threshold
    openUntil := none
    cooldown := cooldown }

/-- `CircuitBreaker::maybe_transition` (`Instant::now()` passed as `now`):
while `Open`, once `now` reaches `open_until` the state becomes `HalfOpen`. -/
def CircuitBreaker.maybeTransition (cb : CircuitBreaker) (now : Nat) :
    CircuitBreaker :=
  if cb.state = BreakerState.Open then
    match cb.openUntil with
    | some u => if u ≤ now then { cb with state := BreakerState.HalfOpen } else cb
    | none => cb
  else cb

/-- `CircuitBreaker::record_success`: reset failures, close if probing. -/
def CircuitBreaker.recordSuccess (cb : CircuitBreaker) : CircuitBreaker :=
  let cb := { cb with failures := 0 }
  if cb.state = BreakerState.HalfOpen then
    { cb with state := BreakerState.Closed }
  else cb

/-- `CircuitBreaker::record_failure` (`Instant::now()` passed as `now`). -/
def CircuitBreaker.recordFailure (cb : CircuitBreaker) (now : Nat) :
    CircuitBreaker :=
  let f := cb.failures + 1
  if cb.threshold ≤ f then
    { cb with
      failures := f
      state := BreakerState.Open
      openUntil := some (now + cb.cooldown) }
  else { cb with failures := f }

/-- `CircuitBreaker::call` at time `now`, where `op : Except E T` is the
result the wrapped operation would produce if invoked. Returns
`(call result, updated breaker, whether the operation was invoked)`. -/
def CircuitBreaker.call {E T : Type} (cb : CircuitBreaker) (now : Nat)
    (op : Except E T) :
    Except (CircuitBreakerError E) T × CircuitBreaker × Bool :=
  let cb := cb.maybeTransition now
  match cb.state with
  | BreakerState.Open => (Except.error CircuitBreakerError.Open, cb, false)
  | _ =>
    match op with
    | Except.ok v => (Except.ok v, cb.recordSuccess, true)
    | Except.error e =>
      (Except.error (CircuitBreakerError.OperationError e),
        cb.recordFailure now, true)

/-- Run a sequence of calls whose wrapped operation always fails; each
element of the list is the call time paired with the operation's error. -/
def CircuitBreaker.failRun {E : Type} (cb : CircuitBreaker) :
    List (Nat × E) → CircuitBreaker
  | [] => cb
  | (t, e) :: ts =>
    CircuitBreaker.failRun (cb.call t (Except.error e : Except E Unit)).2.1 ts

/-! ### Behaviour of `CircuitBreaker` -/

theorem maybeTransition_of_ne_open (cb : CircuitBreaker) (now : Nat)
    (h : ¬ cb.state = BreakerState.Open) : cb.maybeTransition now = cb := by
  unfold CircuitBreaker.maybeTransition
  rw [if_neg h]

theorem call_closed_fail {E : Type} (cb : CircuitBreaker) (now : Nat) (e : E)
    (hcl : cb.state = BreakerState.Closed) :
    cb.call now (Except.error e : Except E Unit)
      = (Except.error (CircuitBreakerError.OperationError e),
          cb.recordFailure now, true) := by
  simp [CircuitBreaker.call,
    maybeTransition_of_ne_open cb now (by simp [hcl]), hcl]

theorem recordFailure_no_trip (cb : CircuitBreaker) (now : Nat)
    (h : cb.failures + 1 < cb.threshold) :
    cb.recordFailure now = { cb with failures := cb.failures + 1 } := by
  simp only [CircuitBreaker.recordFailure]
  rw [if_neg (by omega)]

theorem recordFailure_trip (cb : CircuitBreaker) (now : Nat)
    (h : cb.threshold ≤ cb.failures + 1) :
    cb.recordFailure now
      = { cb with
          failures := cb.failures + 1
          state := BreakerState.Open
          openUntil := some (now + cb.cooldown) } := by
  simp only [CircuitBreaker.recordFailure]
  rw [if_pos h]

theorem failRun_trip {E : Type} :
    ∀ (L : List (Nat × E)) (cb : CircuitBreaker) (t : Nat) (e : E),
      cb.state = BreakerState.Closed →
      cb.failures + L.length = cb.threshold →
      L.getLast? = some (t, e) →
      (cb.failRun L).state = BreakerState.Open ∧
      (cb.failRun L).failures = cb.threshold ∧
      (cb.failRun L).openUntil = some (t + cb.cooldown) ∧
      (cb.failRun L).threshold = cb.threshold ∧
      (cb.failRun L).cooldown = cb.cooldown := by
  intro L
  induction L with
  | nil =>
    intro cb t e _ _ hlast
    simp at hlast
  | cons p ts ih =>
    obtain ⟨t0, e0⟩ := p
    intro cb t e hcl hcnt hlast
    cases ts with
    | nil =>
      have hlen : cb.failures + 1 = cb.threshold := by
        simpa using hcnt
      simp only [List.getLast?] at hlast
      rw [Option.some_inj, Prod.mk.injEq] at hlast
      obtain ⟨rfl, rfl⟩ := hlast
      simp only [CircuitBreaker.failRun]
      rw [call_closed_fail cb t0 e0 hcl]
      simp only
      rw [recordFailure_trip cb t0 (by omega)]
      exact ⟨rfl, by simpa using hlen, rfl, rfl, rfl⟩
    | cons q ts2 =>
      have hstep : (cb.call t0 (Except.error e0 : Except E Unit)).2.1
          = { cb with failures := cb.failures + 1 } := by
        rw [call_closed_fail cb t0 e0 hcl]
        exact recordFailure_no_trip cb t0
          (by simp only [List.length_cons] at hcnt; omega)
      have key : cb.failRun ((t0, e0) :: q :: ts2)
          = CircuitBreaker.failRun
              { cb with failures := cb.failures + 1 } (q :: ts2) := by
        simp only [CircuitBreaker.failRun]
        rw [hstep]
      rw [key]
      rw [List.getLast?_cons_cons] at hlast
      exact ih { cb with failures := cb.failures + 1 } t e hcl
        (by show cb.failures + 1 + (q :: ts2).length = cb.threshold
            simp only [List.length_cons] at hcnt ⊢
            omega)
        hlast

theorem failRun_closed {E : Type} :
    ∀ (L : List (Nat × E)) (cb : CircuitBreaker),
      cb.state = BreakerState.Closed →
      cb.failures + L.length < cb.threshold →
      (cb.failRun L).state = BreakerState.Closed := by
  intro L
  induction L with
  | nil => intro cb hcl _; exact hcl
  | cons p ts ih =>
    obtain ⟨t0, e0⟩ := p
    intro cb hcl hcnt
    have hstep : (cb.call t0 (Except.error e0 : Except E Unit)).2.1
        = { cb with failures := cb.failures + 1 } := by
      rw [call_closed_fail cb t0 e0 hcl]
      exact recordFailure_no_trip cb t0
        (by simp only [List.length_cons] at hcnt; omega)
    have key : cb.failRun ((t0, e0) :: ts)
        = CircuitBreaker.failRun { cb with failures := cb.failures + 1 } ts := by
      simp only [CircuitBreaker.failRun]
      rw [hstep]
    rw [key]
    exact ih { cb with failures := cb.failures + 1 } hcl
      (by show cb.failures + 1 + ts.length < cb.threshold
          simp only [List.length_cons] at hcnt
          omega)

theorem call_open_rejects {E T : Type} (cb : CircuitBreaker) (now u : Nat)
    (op : Except E T) (hopen : cb.state = BreakerState.Open)
    (hu : cb.openUntil = some u) (hlt : now < u) :
    cb.call now op = (Except.error CircuitBreakerError.Open, cb, false) := by
  have hmt : cb.maybeTransition now = cb := by
    unfold CircuitBreaker.maybeTransition
    rw [if_pos hopen, hu]
    exact if_neg (by omega)
  simp [CircuitBreaker.call, hmt, hopen]

theorem maybeTransition_expired {E : Type} (cb : CircuitBreaker) (now u : Nat)
    (hopen : cb.state = BreakerState.Open) (hu : cb.openUntil = some u)
    (hle : u ≤ now) :
    cb.maybeTransition now = { cb with state := BreakerState.HalfOpen } := by
  unfold CircuitBreaker.maybeTransition
  rw [if_pos hopen, hu]
  exact if_pos hle

theorem call_open_expired_ok {E T : Type} (cb : CircuitBreaker) (now u : Nat)
    (v : T) (hopen : cb.state = BreakerState.Open)
    (hu : cb.openUntil = some u) (hle : u ≤ now) :
    cb.call now (Except.ok v : Except E T)
      = (Except.ok v,
          { cb with
            state := BreakerState.Closed
            failures := 0 }, true) := by
  simp [CircuitBreaker.call,
    maybeTransition_expired (E := E) cb now u hopen hu hle,
    CircuitBreaker.recordSuccess]

theorem call_open_expired_fail {E T : Type} (cb : CircuitBreaker)
    (now u : Nat) (e : E) (hopen : cb.state = BreakerState.Open)
    (hu : cb.openUntil = some u) (hle : u ≤ now)
    (hth : cb.threshold ≤ cb.failures + 1) :
    cb.call now (Except.error e : Except E T)
      = (Except.error (CircuitBreakerError.OperationError e),
          { cb with
            state := BreakerState.Open
            failures := cb.failures + 1
            openUntil := some (now + cb.cooldown) }, true) := by
  have hrf := recordFailure_trip
    { cb with state := BreakerState.HalfOpen } now (by simpa using hth)
  simp [CircuitBreaker.call,
    maybeTransition_expired (E := E) cb now u hopen hu hle, hrf]

/-- C1: circuit breaker lifecycle. For threshold `T ≥ 1` and cooldown `c`:
after a run of exactly `T` failing calls (the last at time `tl`) the breaker
from `CircuitBreaker::new(T, c)` is `Open` with `open_until = tl + c`; any
run of fewer than `T` failing calls leaves it `Closed`; while `now < tl + c`
every call is rejected with the `Open` error without invoking the operation
and without changing the breaker; the first call at `now ≥ tl + c` invokes
the operation (HalfOpen probe): a successful probe yields the value and a
`Closed` breaker, a failing probe returns the wrapped error and re-opens the
breaker with `open_until = now + c`. -/
theorem circuit_breaker_lifecycle {E : Type} (T c : Nat) (hT : 1 ≤ T)
    (L : List (Nat × E)) (hlen : L.length = T) (tl : Nat) (el : E)
    (hlast : L.getLast? = some (tl, el)) :
    ((CircuitBreaker.new T c).failRun L).state = BreakerState.Open ∧
    ((CircuitBreaker.new T c).failRun L).openUntil = some (tl + c) ∧
    (∀ (L2 : List (Nat × E)), L2.length < T →
      ((CircuitBreaker.new T c).failRun L2).state = BreakerState.Closed) ∧
    (∀ (now : Nat) (op : Except E Unit), now < tl + c →
      ((CircuitBreaker.new T c).failRun L).call now op
        = (Except.error CircuitBreakerError.Open,
            (CircuitBreaker.new T c).failRun L, false)) ∧
    (∀ (now : Nat), tl + c ≤ now →
      (((CircuitBreaker.new T c).failRun L).call now
          (Except.ok () : Except E Unit)).1 = Except.ok () ∧
      (((CircuitBreaker.new T c).failRun L).call now
          (Except.ok () : Except E Unit)).2.1.state = BreakerState.Closed ∧
      (((CircuitBreaker.new T c).failRun L).call now
          (Except.ok () : Except E Unit)).2.2 = true) ∧
    (∀ (now : Nat) (e : E), tl + c ≤ now →
      (((CircuitBreaker.new T c).failRun L).call now
          (Except.error e : Except E Unit)).1
        = Except.error (CircuitBreakerError.OperationError e) ∧
      (((CircuitBreaker.new T c).failRun L).call now
          (Except.error e : Except E Unit)).2.1.state = BreakerState.Open ∧
      (((CircuitBreaker.new T c).failRun L).call now
          (Except.error e : Except E Unit)).2.1.openUntil = some (now + c) ∧
      (((CircuitBreaker.new T c).failRun L).call now
          (Except.error e : Except E Unit)).2.2 = true) := by
  have htrip := failRun_trip L (CircuitBreaker.new T c) tl el rfl
    (by show 0 + L.length = T; omega) hlast
  obtain ⟨hst, hfl, hou, hth, hcd⟩ := htrip
  have hfl2 : ((CircuitBreaker.new T c).failRun L).failures = T := hfl
  have hou2 : ((CircuitBreaker.new T c).failRun L).openUntil
      = some (tl + c) := hou
  have hth2 : ((CircuitBreaker.new T c).failRun L).threshold = T := hth
  have hcd2 : ((CircuitBreaker.new T c).failRun L).cooldown = c := hcd
  refine ⟨hst, hou2, ?_, ?_, ?_, ?_⟩
  · intro L2 hL2
    exact failRun_closed L2 (CircuitBreaker.new T c) rfl
      (by show 0 + L2.length < T; omega)
  · intro now op hnow
    exact call_open_rejects _ now (tl + c) op hst hou2 hnow
  · intro now hnow
    rw [call_open_expired_ok _ now (tl + c) () hst hou2 hnow]
    exact ⟨rfl, rfl, rfl⟩
  · intro now e hnow
    rw [call_open_expired_fail _ now (tl + c) e hst hou2 hnow
      (by omega)]
    refine ⟨rfl, rfl, ?_, rfl⟩
    show some (now + ((CircuitBreaker.new T c).failRun L).cooldown)
      = some (now + c)
    rw [hcd2]

/-- Witness for C1: threshold 2, cooldown 5, failing calls at times 0 and
3; the tripped breaker is `Open` with `open_until = 3 + 5`. -/
theorem circuit_breaker_lifecycle_witness :
    ((CircuitBreaker.new 2 5).failRun [(0, ()), (3, ())]).state
        = BreakerState.Open ∧
      ((CircuitBreaker.new 2 5).failRun [(0, ()), (3, ())]).openUntil
        = some (3 + 5) := by
  have h := circuit_breaker_lifecycle 2 5 (by decide) [(0, ()), (3, ())]
    (by decide) 3 () (by decide)
  exact ⟨h.1, h.2.1⟩

/-- C7 counterexample: `CircuitBreaker::state()` reads the stored state
without performing the lazy `maybe_transition`. A breaker with threshold 1
and cooldown 5, tripped by one failing call at time 0, has
`open_until = some 5`, yet at time `5` (so `now < open_until` is false)
`state()` still returns `Open`. -/
theorem circuit_breaker_open_window_ce :
    (((CircuitBreaker.new 1 5).call 0
        (Except.error () : Except Unit Unit)).2.1).state = BreakerState.Open ∧
    (((CircuitBreaker.new 1 5).call 0
        (Except.error () : Except Unit Unit)).2.1).openUntil = some 5 ∧
    ¬ (5 : Nat) < (5 : Nat) := by decide

theorem call_invokes {E T : Type} (cb : CircuitBreaker) (now : Nat)
    (op : Except E T)
    (h : ¬ (cb.maybeTransition now).state = BreakerState.Open) :
    (cb.call now op).1 ≠ Except.error CircuitBreakerError.Open ∧
    (cb.call now op).2.2 = true := by
  cases hms : (cb.maybeTransition now).state with
  | Open => exact absurd hms h
  | Closed => cases op <;> simp [CircuitBreaker.call, hms]
  | HalfOpen => cases op <;> simp [CircuitBreaker.call, hms]

/-- C7 (amended): the Open window invariant holds at call boundaries.
Whenever `open_until = some u` and `now ≥ u`, the state observed by `call`
(i.e. after `maybe_transition`, which `call` runs first) is not `Open`: the
breaker does not reject such a call as `Open` and always invokes the
operation. The raw `state()` accessor is lazy and may still report `Open`
between calls (see the counterexample above). -/
theorem circuit_breaker_open_window {E T : Type} (cb : CircuitBreaker)
    (now u : Nat) (hu : cb.openUntil = some u) (hle : u ≤ now) :
    (cb.maybeTransition now).state ≠ BreakerState.Open ∧
    ∀ (op : Except E T),
      (cb.call now op).1 ≠ Except.error CircuitBreakerError.Open ∧
      (cb.call now op).2.2 = true := by
  have hmt : (cb.maybeTransition now).state ≠ BreakerState.Open := by
    by_cases hst : cb.state = BreakerState.Open
    · rw [maybeTransition_expired (E := Unit) cb now u hst hu hle]
      simp
    · rw [maybeTransition_of_ne_open cb now hst]
      exact hst
  exact ⟨hmt, fun op => call_invokes cb now op hmt⟩

/-- Witness for C7's amended theorem: a concrete `Open` breaker with
`open_until = some 5` probed at time 7: the observed state is not `Open`
and the call is not rejected. -/
theorem circuit_breaker_open_window_witness :
    (({ state := BreakerState.Open
        failures := 1
        threshold := 1
        openUntil := some 5
        cooldown := 5 } : CircuitBreaker).maybeTransition 7).state
        ≠ BreakerState.Open ∧
    (({ state := BreakerState.Open
        failures := 1
        threshold := 1
        openUntil := some 5
        cooldown := 5 } : CircuitBreaker).call 7
          (Except.ok () : Except Unit Unit)).1
        ≠ Except.error CircuitBreakerError.Open := by
  have h := circuit_breaker_open_window (E := Unit) (T := Unit)
    { state := BreakerState.Open
      failures := 1
      threshold := 1
      openUntil := some 5
      cooldown := 5 } 7 5 rfl (by decide)
  exact ⟨h.1, (h.2 (Except.ok ())).1⟩

/-! ## Rate limiter (`src/functions/rate_limiter.rs`)

Token-bucket limiter. `tokens` is an `f64` in the source; all quantities the
claims touch are exact small values, embedded as `ℚ` (on which the source's
`+`, `*`, `min`, `-` and comparisons are exact, as they are in `f64` for
these magnitudes). `Instant`-based elapsed time is passed to `refill`
explicitly as `elapsed` seconds; `allow` takes the elapsed time since the
previous call. -/

/-- The state of a `RateLimiter`: fixed `capacity` and `refill_per_sec`,
mutable `tokens` (the `last_refill` instant is replaced by passing elapsed
time explicitly). -/
structure RateLimiter where
  capacity : Nat
  tokens : ℚ
  refill_per_sec : ℚ

/-- `RateLimiter::new`: the bucket starts full at `capacity`. -/
def RateLimiter.new (capacity refill_per_second : Nat) : RateLimiter :=
  { capacity := capacity
    tokens := (capacity : ℚ)
    refill_per_sec := (refill_per_second : ℚ) }

/-- `RateLimiter::refill` with `elapsed` seconds since the last refill:
when time has passed, add `elapsed * refill_per_sec` tokens, clamped to
`capacity`. -/
def RateLimiter.refill (rl : RateLimiter) (elapsed : ℚ) : RateLimiter :=
  if 0 < elapsed then
    { rl with
      tokens := min (rl.tokens + elapsed * rl.refill_per_sec)
        ((rl.capacity : ℚ)) }
  else rl

/-- `RateLimiter::allow` with `elapsed` seconds since the previous call:
refill, then consume one token if at least one is available. -/
def RateLimiter.allow (rl : RateLimiter) (elapsed : ℚ) : Bool × RateLimiter :=
  let rl := rl.refill elapsed
  if 1 ≤ rl.tokens then (true, { rl with tokens := rl.tokens - 1 })
  else (false, rl)

/-- `n` consecutive `allow()` calls with no wall-clock time elapsing between
them; returns the list of results. -/
def RateLimiter.allowRun (rl : RateLimiter) : Nat → List Bool
  | 0 => []
  | n + 1 =>
    let r := rl.allow 0
    r.1 :: r.2.allowRun n

/-! ### Behaviour of `RateLimiter` -/

theorem allow_zero_elapsed (rl : RateLimiter) :
    rl.allow 0 = if 1 ≤ rl.tokens
      then (true, { rl with tokens := rl.tokens - 1 }) else (false, rl) := by
  have hrf : rl.refill 0 = rl := by
    unfold RateLimiter.refill
    rw [if_neg (lt_irrefl 0)]
  simp only [RateLimiter.allow, hrf]

theorem allowRun_of_tokens :
    ∀ (n : Nat) (rl : RateLimiter), rl.tokens = (n : ℚ) →
      rl.allowRun (n + 1) = List.replicate n true ++ [false] := by
  intro n
  induction n with
  | zero =>
    intro rl h
    simp only [RateLimiter.allowRun]
    rw [allow_zero_elapsed rl, h]
    norm_num
  | succ n ih =>
    intro rl h
    simp only [RateLimiter.allowRun]
    rw [allow_zero_elapsed rl, h]
    rw [if_pos (by push_cast; linarith [Nat.cast_nonneg (α := ℚ) n])]
    have htk : ((n + 1 : Nat) : ℚ) - 1 = (n : ℚ) := by push_cast; ring
    have := ih { rl with tokens := ((n + 1 : Nat) : ℚ) - 1 }
      (by show ((n + 1 : Nat) : ℚ) - 1 = (n : ℚ); exact htk)
    simp only [RateLimiter.allowRun] at this ⊢
    rw [this]
    rfl

/-- C3: rate limiter initial budget. For every capacity `C ≥ 1` and refill
rate `R`, on a freshly constructed limiter, with no wall-clock time elapsing
between calls, the first `C` consecutive `allow()` calls return `true` and
the `(C+1)`-th returns `false`. -/
theorem rate_limiter_initial_budget (C R : Nat) (hC : 1 ≤ C) :
    (RateLimiter.new C R).allowRun (C + 1)
      = List.replicate C true ++ [false] :=
  allowRun_of_tokens C (RateLimiter.new C R) rfl

/-- Witness for C3 at `C = 2`, `R = 10`: the first two calls are allowed,
the third is rejected. -/
theorem rate_limiter_initial_budget_witness :
    (RateLimiter.new 2 10).allowRun (2 + 1)
      = List.replicate 2 true ++ [false] :=
  rate_limiter_initial_budget 2 10 (by decide)

/-! ## Memoize (`src/functions/memoize.rs`)

The `Mutex<HashMap<A, R>>` cache is an association list; a call takes the
cache state and returns `(result, updated cache, whether the underlying
function was invoked)`, mirroring the source: look up the argument, return
the cached clone on a hit; otherwise invoke `func`, insert, and return. -/

/-- One call of the closure returned by `memoize(func)`, given the current
cache contents. -/
def memoCall {A R : Type} [DecidableEq A] (func : A → R)
    (cache : List (A × R)) (arg : A) : R × List (A × R) × Bool :=
  match cache.find? (fun p => decide (p.1 = arg)) with
  | some p => (p.2, cache, false)
  | none => (func arg, (arg, func arg) :: cache, true)

/-- C5: the memoizer caches and is call-transparent. For every function
`func` and argument `a`, starting from the empty cache: the first call
invokes `func` and returns `func a`; the second call with the same argument
does not invoke `func` and returns the identical result. -/
theorem memoize_call_transparent {A R : Type} [DecidableEq A]
    (func : A → R) (a : A) :
    (memoCall func [] a).1 = func a ∧
    (memoCall func [] a).2.2 = true ∧
    (memoCall func (memoCall func [] a).2.1 a).1 = func a ∧
    (memoCall func (memoCall func [] a).2.1 a).2.2 = false ∧
    (memoCall func (memoCall func [] a).2.1 a).1 = (memoCall func [] a).1 := by
  have h1 : memoCall func [] a = (func a, [(a, func a)], true) := by
    simp [memoCall]
  have h2 : memoCall func [(a, func a)] a = (func a, [(a, func a)], false) := by
    simp [memoCall, List.find?]
  rw [h1]
  simp [h2]

/-! ## Throttle (`src/functions/throttle.rs`)

`Throttled` keeps `last_call : Arc<Mutex<Option<Instant>>>`. `call()` at
time `now`: if no execution is recorded, or `now - last ≥ delay`, it records
`now` and executes the wrapped function synchronously; otherwise the call is
a no-op. The trace of a whole execution is obtained by folding `callAt`
over a monotone list of call times and collecting the times at which the
wrapped function actually ran. -/

/-- The lock-protected section of `Throttled::call` at time `now`:
returns whether the wrapped function executes and the new `last_call`. -/
def Throttled.callAt (delay now : Nat) (last : Option Nat) :
    Bool × Option Nat :=
  match last with
  | none => (true, some now)
  | some l => if delay ≤ now - l then (true, some now) else (false, some l)

/-- Fold `Throttled::call` over a list of call times (monotone, since
`Instant` is monotone), starting from `last_call = last`; returns the times
at which the wrapped function executed, in order. -/
def throttleRun (delay : Nat) : Option Nat → List Nat → List Nat
  | _, [] => []
  | last, t :: ts =>
    match Throttled.callAt delay t last with
    | (true, last2) => t :: throttleRun delay last2 ts
    | (false, last2) => throttleRun delay last2 ts

/-! ### Behaviour of `Throttled` -/

theorem throttleRun_none (delay t : Nat) (ts : List Nat) :
    throttleRun delay none (t :: ts) = t :: throttleRun delay (some t) ts :=
  rfl

theorem callAt_some (delay now l : Nat) :
    Throttled.callAt delay now (some l)
      = if delay ≤ now - l then (true, some now) else (false, some l) :=
  rfl

theorem throttleRun_exec (delay t l : Nat) (ts : List Nat)
    (h : delay ≤ t - l) :
    throttleRun delay (some l) (t :: ts)
      = t :: throttleRun delay (some t) ts := by
  conv_lhs => unfold throttleRun
  rw [callAt_some, if_pos h]

theorem throttleRun_skip (delay t l : Nat) (ts : List Nat)
    (h : ¬ delay ≤ t - l) :
    throttleRun delay (some l) (t :: ts)
      = throttleRun delay (some l) ts := by
  conv_lhs => unfold throttleRun
  rw [callAt_some, if_neg h]

theorem chain_le_of_le {l t : Nat} {ts : List Nat} (h : l ≤ t)
    (hc : List.Chain (· ≤ ·) t ts) : List.Chain (· ≤ ·) l ts := by
  cases ts with
  | nil => exact List.Chain.nil
  | cons u ts2 =>
    cases hc with
    | cons hu hc2 => exact List.Chain.cons (le_trans h hu) hc2

theorem throttleRun_spaced (D : Nat) :
    ∀ (ts : List Nat) (l : Nat), List.Chain (· ≤ ·) l ts →
      List.Chain (fun a b => a + D ≤ b) l (throttleRun D (some l) ts) := by
  intro ts
  induction ts with
  | nil => intro l _; exact List.Chain.nil
  | cons t ts2 ih =>
    intro l hc
    cases hc with
    | cons hlt hc2 =>
      by_cases hd : D ≤ t - l
      · rw [throttleRun_exec D t l ts2 hd]
        exact List.Chain.cons (by omega) (ih t hc2)
      · rw [throttleRun_skip D t l ts2 hd]
        exact ih l (chain_le_of_le hlt hc2)

/-- C6: throttled minimum spacing. For delay `D` and any monotone sequence
of call times: the very first call always executes (the head of the
execution trace is the first call time), and the execution times are
pairwise separated by at least `D`. -/
theorem throttled_min_spacing (D : Nat) (times : List Nat)
    (hmono : List.Chain' (· ≤ ·) times) :
    (throttleRun D none times).head? = times.head? ∧
    List.Pairwise (fun a b => a + D ≤ b) (throttleRun D none times) := by
  haveI : IsTrans Nat (fun a b => a + D ≤ b) :=
    ⟨fun x y z h1 h2 => by omega⟩
  cases times with
  | nil => exact ⟨rfl, List.Pairwise.nil⟩
  | cons t ts =>
    rw [throttleRun_none]
    refine ⟨rfl, ?_⟩
    rw [← List.chain'_iff_pairwise]
    show List.Chain (fun a b => a + D ≤ b) t (throttleRun D (some t) ts)
    exact throttleRun_spaced D ts t hmono

/-- Witness for C6 with `D = 3` and calls at times `0, 2, 7`: the call at
time 2 is suppressed, executions happen at `0` and `7`, spaced `≥ 3`. -/
theorem throttled_min_spacing_witness :
    (throttleRun 3 none [0, 2, 7]).head? = ([0, 2, 7] : List Nat).head? ∧
    List.Pairwise (fun a b => a + 3 ≤ b) (throttleRun 3 none [0, 2, 7]) :=
  throttled_min_spacing 3 [0, 2, 7]
    (by simp [List.chain'_cons, List.chain'_singleton])

/-! ## Timeout (`src/functions/timeout.rs`)

`with_timeout(dur, f)` spawns a worker thread that computes `f()` and sends
the result over a channel; the caller blocks on `recv_timeout(dur)` and maps
the outcome to `Option`. Its timing semantics: if the worker's computation
takes `opDuration` and the result is `opResult`, the channel delivers the
result exactly when it is sent strictly before the timeout elapses,
otherwise `recv_timeout` yields a timeout and the caller gets `None`. -/

/-- `with_timeout` from `src/functions/timeout.rs`, with the wrapped
closure abstracted by the time `opDuration` it takes and the value
`opResult` it produces. -/
def with_timeout {T : Type} (dur opDuration : Nat) (opResult : T) :
    Option T :=
  if opDuration < dur then some opResult else none

/-- C8: timeout result. `with_timeout(D, op)` returns `Some(r)` with `r`
the operation's result whenever the operation completes strictly before `D`
elapses, and returns `None` whenever the operation takes longer than `D`. -/
theorem with_timeout_result {T : Type} (dur opDuration : Nat) (v : T) :
    (opDuration < dur → with_timeout dur opDuration v = some v) ∧
    (dur < opDuration → with_timeout dur opDuration v = none) := by
  constructor
  · intro h
    unfold with_timeout
    rw [if_pos h]
  · intro h
    unfold with_timeout
    rw [if_neg (by omega)]

/-- Witness for C8: a 3-unit operation under a 10-unit timeout yields its
value; a 50-unit operation under a 10-unit timeout yields `None`. -/
theorem with_timeout_result_witness :
    with_timeout 10 3 (42 : Nat) = some 42 ∧
      with_timeout 10 50 (42 : Nat) = none :=
  ⟨(with_timeout_result 10 3 42).1 (by decide),
    (with_timeout_result 10 50 42).2 (by decide)⟩

/-! ## Debounce (`src/functions/debounce.rs`)

`Debounced::call` at time `t` sets the shared deadline to `t + delay` and
wakes the worker. The worker loop waits until the current deadline is
reached, re-waiting whenever the deadline has been pushed forward, then
clears it and runs the wrapped function once. Hence, for a monotone list of
call times, the worker fires at deadline `tᵢ + delay` exactly when the next
call arrives at or after that deadline (otherwise its timed wait observes
the extended deadline and keeps waiting), and after the last call it fires
at `t_last + delay`. `debounceExecs` computes the resulting execution
times. -/

/-- Execution times of the `Debounced` worker for a monotone list of call
times: the pending deadline `t₁ + D` fires only if the next call does not
arrive before it; the deadline of the last call always fires. -/
def debounceExecs (D : Nat) : List Nat → List Nat
  | [] => []
  | [t] => [t + D]
  | t1 :: t2 :: ts =>
    if t2 < t1 + D then debounceExecs D (t2 :: ts)
    else (t1 + D) :: debounceExecs D (t2 :: ts)

/-! ### Behaviour of `Debounced` -/

theorem chain_le_getLast :
    ∀ (ts : List Nat) (a x : Nat), List.Chain (· ≤ ·) a ts →
      (a :: ts).getLast? = some x → a ≤ x := by
  intro ts
  induction ts with
  | nil =>
    intro a x _ h
    rw [List.getLast?_singleton, Option.some_inj] at h
    omega
  | cons b ts2 ih =>
    intro a x hc hl
    cases hc with
    | cons hab hc2 =>
      rw [List.getLast?_cons_cons] at hl
      exact le_trans hab (ih b x hc2 hl)

/-- C9: debounced single execution per burst. For delay `D` and a burst of
`N ≥ 1` calls at monotone times all within a span shorter than `D`
(`t_last < t_first + D`), the wrapped function executes exactly once, at
time `t_last + D` — i.e. no earlier than `D` after the last call. -/
theorem debounced_single_execution (D : Nat) :
    ∀ (times : List Nat) (t0 tl : Nat),
      times.head? = some t0 → times.getLast? = some tl →
      List.Chain' (· ≤ ·) times → tl < t0 + D →
      debounceExecs D times = [tl + D] := by
  intro times
  induction times with
  | nil => intro t0 tl h _ _ _; simp at h
  | cons t ts ih =>
    intro t0 tl hh hl hc hspan
    rw [List.head?_cons, Option.some_inj] at hh
    subst hh
    cases ts with
    | nil =>
      rw [List.getLast?_singleton, Option.some_inj] at hl
      subst hl
      rfl
    | cons t2 ts2 =>
      rw [List.getLast?_cons_cons] at hl
      have hch : List.Chain (· ≤ ·) t (t2 :: ts2) := hc
      cases hch with
      | cons ht2 hc2 =>
        have ht2l : t2 ≤ tl := chain_le_getLast ts2 t2 tl hc2 hl
        have hcond : t2 < t + D := by omega
        show debounceExecs D (t :: t2 :: ts2) = [tl + D]
        unfold debounceExecs
        rw [if_pos hcond]
        exact ih t2 tl rfl hl hc2 (by omega)

/-- Witness for C9: three calls at times `0, 3, 5` with delay `20` (span
`5 < 20`) produce exactly one execution, at time `5 + 20`. -/
theorem debounced_single_execution_witness :
    debounceExecs 20 [0, 3, 5] = [5 + 20] :=
  debounced_single_execution 20 [0, 3, 5] 0 5 rfl (by decide)
    (by simp [List.chain'_cons, List.chain'_singleton]) (by decide)

end Toolchest
